import Mathlib

set_option maxRecDepth 10000

/-!
# Verification of the `string2` crate (`String2`, a growable `Vec<char>`-backed string)

This file shallowly embeds the `String2` container from `src/lib.rs` and its
UTF-8 boundary, and proves the specification claims about it.

The data model: `String2` wraps a `Vec<char>`; we model it as a structure
holding a `List Nat` of Unicode code points (Rust `char` values are Unicode
scalar values; we track the scalar-value property as an explicit predicate
`ScalarValue`, since code points are modelled as naturals).

Fallible operations (those that panic on a violated precondition in Rust, or
return `Option`) are modelled with `Option`.
-/

/-- A Unicode scalar value: a code point that is not a surrogate and is at
most `0x10FFFF`.  This is the validity invariant of Rust `char`. -/
def ScalarValue (c : Nat) : Prop :=
  c < 0xD800 ∨ (0xE000 ≤ c ∧ c < 0x110000)

/-- UTF-8 encoding of one scalar value, as in Rust `char::encode_utf8`
(used by `impl Into<String> for String2`, src/lib.rs:740-744): one to four
bytes depending on the magnitude of the code point. -/
def utf8EncodeChar (c : Nat) : List Nat :=
  if c < 0x80 then [c]
  else if c < 0x800 then [0xC0 + c / 64, 0x80 + c % 64]
  else if c < 0x10000 then [0xE0 + c / 4096, 0x80 + c / 64 % 64, 0x80 + c % 64]
  else [0xF0 + c / 262144, 0x80 + c / 4096 % 64, 0x80 + c / 64 % 64, 0x80 + c % 64]

/-- UTF-8 encoding of a sequence of scalar values: the concatenation of the
per-scalar encodings.  This is exactly what `impl Into<String> for String2`
does: it maps `encode_utf8` over the chars and collects the results. -/
def utf8EncodeList : List Nat → List Nat
  | [] => []
  | c :: cs => utf8EncodeChar c ++ utf8EncodeList cs

/-- Value of a two-byte UTF-8 sequence `[b, b1]`, or `none` if the pair is
not a well-formed two-byte sequence: the lead must be in `C2..DF` (leads
`C0`/`C1` would be overlong) and the trailer a continuation byte
`80..BF`. -/
def utf8DecodeTwo (b b1 : Nat) : Option Nat :=
  if (0xC2 ≤ b ∧ b < 0xE0) ∧ (0x80 ≤ b1 ∧ b1 < 0xC0) then
    some ((b - 0xC0) * 64 + (b1 - 0x80))
  else none

/-- Value of a three-byte UTF-8 sequence `[b, b1, b2]`, or `none` if not
well-formed: lead `E0..EF`, continuation trailers, no overlong form (lead
`E0` requires a second byte of at least `A0`) and no surrogate (lead `ED`
requires a second byte below `A0`). -/
def utf8DecodeThree (b b1 b2 : Nat) : Option Nat :=
  if (0xE0 ≤ b ∧ b < 0xF0) ∧ (0x80 ≤ b1 ∧ b1 < 0xC0) ∧ (0x80 ≤ b2 ∧ b2 < 0xC0) ∧
      (b = 0xE0 → 0xA0 ≤ b1) ∧ (b = 0xED → b1 < 0xA0) then
    some ((b - 0xE0) * 4096 + (b1 - 0x80) * 64 + (b2 - 0x80))
  else none

/-- Value of a four-byte UTF-8 sequence `[b, b1, b2, b3]`, or `none` if not
well-formed: lead `F0..F4`, continuation trailers, no overlong form (lead
`F0` requires a second byte of at least `90`) and nothing above `U+10FFFF`
(lead `F4` requires a second byte below `90`). -/
def utf8DecodeFour (b b1 b2 b3 : Nat) : Option Nat :=
  if (0xF0 ≤ b ∧ b < 0xF5) ∧ (0x80 ≤ b1 ∧ b1 < 0xC0) ∧ (0x80 ≤ b2 ∧ b2 < 0xC0) ∧
      (0x80 ≤ b3 ∧ b3 < 0xC0) ∧ (b = 0xF0 → 0x90 ≤ b1) ∧ (b = 0xF4 → b1 < 0x90) then
    some ((b - 0xF0) * 262144 + (b1 - 0x80) * 4096 + (b2 - 0x80) * 64 + (b3 - 0x80))
  else none

/-- Decodes one UTF-8 scalar value from the stream `b :: rest`: returns the
scalar value and the remaining bytes, or `none` if the stream does not start
with a well-formed sequence.  An ASCII byte stands alone; otherwise the
expected number of continuation bytes must be present and the whole
sequence must pass the corresponding per-length check (a lead byte of the
wrong class is rejected by that check, so continuation bytes `80..BF` and
invalid leads `C0`, `C1`, `F5..FF` never decode). -/
def decodeOne (b : Nat) (rest : List Nat) : Option (Nat × List Nat) :=
  if b < 0x80 then some (b, rest)
  else
    match rest with
    | [] => none
    | [b1] => (utf8DecodeTwo b b1).map (·, ([] : List Nat))
    | [b1, b2] =>
        if b < 0xE0 then (utf8DecodeTwo b b1).map (·, [b2])
        else (utf8DecodeThree b b1 b2).map (·, ([] : List Nat))
    | b1 :: b2 :: b3 :: r =>
        if b < 0xE0 then (utf8DecodeTwo b b1).map (·, b2 :: b3 :: r)
        else if b < 0xF0 then (utf8DecodeThree b b1 b2).map (·, b3 :: r)
        else (utf8DecodeFour b b1 b2 b3).map (·, r)

/-- Decodes a byte stream one scalar value at a time, with an explicit
fuel argument to make the recursion structural.  `decodeOne` consumes at
least one byte per step, so with fuel at least the length of the input the
fuel never runs out (`utf8DecodeAux_sound` relies only on this use). -/
def utf8DecodeAux : Nat → List Nat → Option (List Nat)
  | _, [] => some []
  | 0, _ :: _ => none
  | fuel + 1, b :: rest =>
    match decodeOne b rest with
    | some (c, r) => (utf8DecodeAux fuel r).map (c :: ·)
    | none => none

/-- Modelled from the spec: strict UTF-8 decoding at the `from_text`
boundary.  In the Rust code the validation lives in the standard library
(`str::from_utf8`; a `&str` is valid UTF-8 by construction) and
`From<&str> for String2` (src/lib.rs:695-702) then iterates
`string.chars()`.  We model the whole boundary on raw bytes: the scalar
values are decoded one at a time in encounter order, and `none` is the
decoding error. -/
def utf8Decode (l : List Nat) : Option (List Nat) :=
  utf8DecodeAux l.length l

/-- The container: `pub struct String2 { inner: Vec<char> }`
(src/lib.rs:203-206), with the char vector modelled as a list of code
points. -/
structure String2 where
  inner : List Nat
deriving DecidableEq

/-- `String2::new` (src/lib.rs:230-234): the empty sequence. -/
def String2.new : String2 := ⟨[]⟩

/-- `String2::len` (src/lib.rs:658-661): `self.inner.len()`. -/
def String2.len (q : String2) : Nat :=
  q.inner.length

/-- `String2::get` (src/lib.rs:608-611): `self.inner.get(idx)`, the checked
lookup — `some` of the element when in bounds, `none` otherwise. -/
def String2.get (q : String2) (idx : Nat) : Option Nat :=
  q.inner[idx]?

/-- `String2::get_mut` (src/lib.rs:613-616): `self.inner.get_mut(idx)`.  The
value read through the returned reference is the same checked lookup. -/
def String2.get_mut (q : String2) (idx : Nat) : Option Nat :=
  q.inner[idx]?

/-- `String2::push` (src/lib.rs:623-626): `self.inner.push(ch)`, appending
one element at the end. -/
def String2.push (q : String2) (ch : Nat) : String2 :=
  ⟨q.inner ++ [ch]⟩

/-- `String2::pop` (src/lib.rs:633-636): `self.inner.pop()` — removes and
returns the last element, or `none` on the empty sequence (which it leaves
unchanged).  The result pair is (returned value, `self` after). -/
def String2.pop (q : String2) : Option Nat × String2 :=
  (q.inner.getLast?, ⟨q.inner.dropLast⟩)

/-- `String2::remove` (src/lib.rs:638-641): `self.inner.remove(idx)` —
removes and returns the element at `idx`, shifting the tail left.
`Vec::remove` panics when `idx` is out of bounds; the panic is modelled as
`none`. -/
def String2.remove (q : String2) (idx : Nat) : Option (Nat × String2) :=
  if h : idx < q.inner.length then
    some (q.inner.get ⟨idx, h⟩, ⟨q.inner.take idx ++ q.inner.drop (idx + 1)⟩)
  else none

/-- `String2::insert` (src/lib.rs:643-646): `self.inner.insert(idx, ch)` —
inserts `ch` at `idx`, shifting the tail right.  `Vec::insert` panics when
`idx > len`; the panic is modelled as `none`. -/
def String2.insert (q : String2) (idx : Nat) (ch : Nat) : Option String2 :=
  if idx ≤ q.inner.length then
    some ⟨q.inner.take idx ++ ch :: q.inner.drop idx⟩
  else none

/-- `String2::insert_str` (src/lib.rs:648-651).  The body of the Rust
function is empty — it ignores both arguments and performs no insertion at
all — so the embedding returns the receiver unchanged.  The string argument
is modelled as its list of scalar values. -/
def String2.insert_str (q : String2) (_idx : Nat) (_string : List Nat) : String2 :=
  q

/-- `String2::append` (src/lib.rs:653-656): `self.inner.append(&mut
other.inner)` — moves all of `other`'s elements onto the end of `self`,
leaving `other` empty.  The result pair is (`self` after, `other` after). -/
def String2.append (q other : String2) : String2 × String2 :=
  (⟨q.inner ++ other.inner⟩, ⟨[]⟩)

/-- `String2::split_off` (src/lib.rs:668-675): `self.inner.split_off(at)` —
`self` retains the elements before `at` and the returned sequence holds the
rest.  `Vec::split_off` panics when `at > len`; the panic is modelled as
`none`.  The result pair is (`self` after, returned sequence). -/
def String2.split_off (q : String2) (at_idx : Nat) : Option (String2 × String2) :=
  if at_idx ≤ q.inner.length then
    some (⟨q.inner.take at_idx⟩, ⟨q.inner.drop at_idx⟩)
  else none

/-- `String2::split_at` (src/lib.rs:677-682): `self.inner.split_at(mid)`
followed by `to_vec()` on both halves — the receiver is only borrowed
(`&self`), and two fresh copies of the two ranges are returned.
`slice::split_at` panics when `mid > len`; the panic is modelled as
`none`. -/
def String2.split_at (q : String2) (mid : Nat) : Option (String2 × String2) :=
  if mid ≤ q.inner.length then
    some (⟨q.inner.take mid⟩, ⟨q.inner.drop mid⟩)
  else none

/-- `String2::clear` (src/lib.rs:684-687): removes all elements. -/
def String2.clear (_q : String2) : String2 :=
  ⟨[]⟩

/-- `String2::truncate` (src/lib.rs:618-621): `self.inner.truncate(new_len)`. -/
def String2.truncate (q : String2) (new_len : Nat) : String2 :=
  ⟨q.inner.take new_len⟩

/-- `impl ops::Index<usize> for String2` (src/lib.rs:875-881):
`&self.inner[idx]`, the unchecked positional access; Rust panics when out of
bounds, so the embedding takes the bound as a hypothesis. -/
def String2.index (q : String2) (idx : Nat) (h : idx < q.inner.length) : Nat :=
  q.inner.get ⟨idx, h⟩

/-- `impl From<&str> for String2` (src/lib.rs:695-702) seen from raw bytes:
the bytes are first validated/decoded as UTF-8 (the `&str` boundary), then
the scalar values become the elements (`string.chars().collect()`). -/
def String2.from_text (b : List Nat) : Option String2 :=
  (utf8Decode b).map String2.mk

/-- `impl Into<String> for String2` (src/lib.rs:740-744) seen as raw bytes:
every element is re-encoded with `encode_utf8` and the pieces are
concatenated. -/
def String2.to_text (q : String2) : List Nat :=
  utf8EncodeList q.inner

/-- A byte list is well-formed UTF-8 iff it is the encoding of some sequence
of Unicode scalar values. -/
def WellFormedUtf8 (b : List Nat) : Prop :=
  ∃ cs, (∀ c ∈ cs, ScalarValue c) ∧ utf8EncodeList cs = b

/-!
## Basic lemmas
-/

theorem String2.inner_mk (l : List Nat) : (String2.mk l).inner = l := rfl

/-- Every successful `decodeOne` step consumes at least one byte: the
remaining stream is no longer than the tail it started from. -/
theorem decodeOne_length (b : Nat) (rest : List Nat) (c : Nat) (r : List Nat)
    (h : decodeOne b rest = some (c, r)) : r.length ≤ rest.length := by
  unfold decodeOne at h
  split at h
  · cases h
    exact Nat.le_refl _
  · split at h
    · cases h
    · simp only [Option.map_eq_some'] at h
      obtain ⟨v, hv, hpair⟩ := h
      cases hpair
      simp
    · split at h <;>
        · simp only [Option.map_eq_some'] at h
          obtain ⟨v, hv, hpair⟩ := h
          cases hpair
          simp
    · split at h
      · simp only [Option.map_eq_some'] at h
        obtain ⟨v, hv, hpair⟩ := h
        cases hpair
        simp
      · split at h <;>
          · simp only [Option.map_eq_some'] at h
            obtain ⟨v, hv, hpair⟩ := h
            cases hpair
            simp only [List.length_cons]
            omega

/-!
## Soundness of decoding

Every accepted byte sequence re-encodes to exactly the bytes it was decoded
from, and every decoded value is a Unicode scalar value.  This is the heart
of the round-trip law and of the rejection of ill-formed input.
-/

theorem utf8DecodeTwo_sound (b b1 c : Nat) (h : utf8DecodeTwo b b1 = some c) :
    utf8EncodeChar c = [b, b1] ∧ ScalarValue c := by
  unfold utf8DecodeTwo at h
  split at h
  case isTrue hc =>
    cases h
    unfold utf8EncodeChar ScalarValue
    rw [if_neg (by omega), if_pos (by omega)]
    refine ⟨?_, by omega⟩
    simp only [List.cons.injEq, and_true]
    omega
  case isFalse => cases h

theorem utf8DecodeThree_sound (b b1 b2 c : Nat) (h : utf8DecodeThree b b1 b2 = some c) :
    utf8EncodeChar c = [b, b1, b2] ∧ ScalarValue c := by
  unfold utf8DecodeThree at h
  split at h
  case isTrue hc =>
    cases h
    unfold utf8EncodeChar ScalarValue
    rw [if_neg (by omega), if_neg (by omega), if_pos (by omega)]
    refine ⟨?_, by omega⟩
    simp only [List.cons.injEq, and_true]
    omega
  case isFalse => cases h

theorem utf8DecodeFour_sound (b b1 b2 b3 c : Nat) (h : utf8DecodeFour b b1 b2 b3 = some c) :
    utf8EncodeChar c = [b, b1, b2, b3] ∧ ScalarValue c := by
  unfold utf8DecodeFour at h
  split at h
  case isTrue hc =>
    cases h
    unfold utf8EncodeChar ScalarValue
    rw [if_neg (by omega), if_neg (by omega), if_neg (by omega)]
    refine ⟨?_, by omega⟩
    simp only [List.cons.injEq, and_true]
    omega
  case isFalse => cases h

theorem decodeOne_sound (b : Nat) (rest : List Nat) (c : Nat) (r : List Nat)
    (h : decodeOne b rest = some (c, r)) :
    utf8EncodeChar c ++ r = b :: rest ∧ ScalarValue c := by
  unfold decodeOne at h
  split at h
  case isTrue hb =>
    cases h
    refine ⟨?_, Or.inl (by omega)⟩
    unfold utf8EncodeChar
    rw [if_pos hb]
    rfl
  case isFalse hb =>
    split at h
    · cases h
    · simp only [Option.map_eq_some'] at h
      obtain ⟨v, hv, hpair⟩ := h
      cases hpair
      obtain ⟨he, hs⟩ := utf8DecodeTwo_sound _ _ _ hv
      exact ⟨by simp [he], hs⟩
    · split at h <;>
        (simp only [Option.map_eq_some'] at h
         obtain ⟨v, hv, hpair⟩ := h
         cases hpair)
      · obtain ⟨he, hs⟩ := utf8DecodeTwo_sound _ _ _ hv
        exact ⟨by simp [he], hs⟩
      · obtain ⟨he, hs⟩ := utf8DecodeThree_sound _ _ _ _ hv
        exact ⟨by simp [he], hs⟩
    · split at h
      · simp only [Option.map_eq_some'] at h
        obtain ⟨v, hv, hpair⟩ := h
        cases hpair
        obtain ⟨he, hs⟩ := utf8DecodeTwo_sound _ _ _ hv
        exact ⟨by simp [he], hs⟩
      · split at h <;>
          (simp only [Option.map_eq_some'] at h
           obtain ⟨v, hv, hpair⟩ := h
           cases hpair)
        · obtain ⟨he, hs⟩ := utf8DecodeThree_sound _ _ _ _ hv
          exact ⟨by simp [he], hs⟩
        · obtain ⟨he, hs⟩ := utf8DecodeFour_sound _ _ _ _ _ hv
          exact ⟨by simp [he], hs⟩

theorem utf8DecodeAux_sound (fuel : Nat) :
    ∀ l cs, l.length ≤ fuel → utf8DecodeAux fuel l = some cs →
      utf8EncodeList cs = l ∧ ∀ c ∈ cs, ScalarValue c := by
  induction fuel with
  | zero =>
      intro l cs hlen h
      match l with
      | [] =>
        simp only [utf8DecodeAux] at h
        cases h
        exact ⟨rfl, by simp⟩
      | b :: rest => simp at hlen
  | succ fuel ih =>
      intro l cs hlen h
      match l with
      | [] =>
        simp only [utf8DecodeAux] at h
        cases h
        exact ⟨rfl, by simp⟩
      | b :: rest =>
        simp only [utf8DecodeAux] at h
        cases hd : decodeOne b rest with
        | none =>
            rw [hd] at h
            cases h
        | some p =>
            obtain ⟨c, r⟩ := p
            rw [hd] at h
            simp only [Option.map_eq_some'] at h
            obtain ⟨cs0, hdec, rfl⟩ := h
            have hr : r.length ≤ fuel := by
              have := decodeOne_length b rest c r hd
              simp only [List.length_cons] at hlen
              omega
            obtain ⟨henc, hsc⟩ := ih r cs0 hr hdec
            obtain ⟨hee, hsv⟩ := decodeOne_sound b rest c r hd
            refine ⟨?_, ?_⟩
            · simp only [utf8EncodeList, henc, hee]
            · intro x hx
              rcases List.mem_cons.mp hx with rfl | hx
              · exact hsv
              · exact hsc x hx

theorem utf8Decode_sound (l : List Nat) (cs : List Nat) (h : utf8Decode l = some cs) :
    utf8EncodeList cs = l ∧ ∀ c ∈ cs, ScalarValue c :=
  utf8DecodeAux_sound l.length l cs (Nat.le_refl _) h

/-!
## The claims
-/

/-- Claim C1: for every valid encoded text `s`, decoding `s` into a
`String2` (via `From<&str>`) and re-encoding it (via `Into<String>`)
yields `s` exactly: whenever `from_text` accepts a byte sequence, `to_text`
of the result is that byte sequence. -/
theorem from_text_to_text_roundtrip (b : List Nat) (q : String2)
    (h : String2.from_text b = some q) : String2.to_text q = b := by
  unfold String2.from_text at h
  rw [Option.map_eq_some'] at h
  obtain ⟨cs, hdec, rfl⟩ := h
  exact (utf8Decode_sound b cs hdec).1

theorem from_text_to_text_roundtrip_witness :
    String2.from_text [0x68, 0xC3, 0xA9] = some (String2.mk [0x68, 0xE9]) ∧
      String2.to_text (String2.mk [0x68, 0xE9]) = [0x68, 0xC3, 0xA9] :=
  ⟨rfl, from_text_to_text_roundtrip [0x68, 0xC3, 0xA9] (String2.mk [0x68, 0xE9]) rfl⟩

/-- Claim C2 (evaluation of the code at the failing input): `insert_str` in
the code has an empty body, so inserting `"xy"` at position 1 of `"ab"`
leaves the sequence `"ab"` unchanged, which differs from the claimed result
`"axyb"`.  This contradicts the documented shifting-insert contract, so the
claim is a code bug, not a wrong claim. -/
theorem insert_str_performs_no_insertion :
    String2.insert_str (String2.mk [0x61, 0x62]) 1 [0x78, 0x79] = String2.mk [0x61, 0x62] ∧
      String2.mk [0x61, 0x62] ≠ String2.mk [0x61, 0x78, 0x79, 0x62] :=
  ⟨rfl, by decide⟩

/-- Claim C3: for every sequence `q` and `n ≤ q.len`, `split_off n`
succeeds, and appending the returned tail back onto the truncated front
reconstitutes the original sequence. -/
theorem split_off_append_identity (q : String2) (n : Nat) (h : n ≤ q.len) :
    ∃ front back, q.split_off n = some (front, back) ∧ (front.append back).1 = q := by
  obtain ⟨l⟩ := q
  have h2 : n ≤ l.length := h
  refine ⟨⟨l.take n⟩, ⟨l.drop n⟩, ?_, ?_⟩
  · simp only [String2.split_off, String2.inner_mk]
    rw [if_pos h2]
  · simp only [String2.append, String2.inner_mk]
    simp [List.take_append_drop]

theorem split_off_append_identity_witness :
    2 ≤ (String2.mk [104, 101, 108, 108, 111]).len ∧
      ∃ front back, (String2.mk [104, 101, 108, 108, 111]).split_off 2 = some (front, back) ∧
        (front.append back).1 = String2.mk [104, 101, 108, 108, 111] :=
  ⟨by decide, split_off_append_identity (String2.mk [104, 101, 108, 108, 111]) 2 (by decide)⟩

/-- Claim C4: for `mid ≤ q.len`, `split_at mid` returns two new sequences
holding exactly the elements `[0, mid)` and `[mid, q.len)` of `q` (the
receiver is only borrowed, so `q` itself is unmodified); for `mid > q.len`
it faults (modelled as `none`). -/
theorem split_at_spec (q : String2) (mid : Nat) :
    (mid ≤ q.len →
      ∃ left right, q.split_at mid = some (left, right) ∧
        left.len = mid ∧ right.len = q.len - mid ∧
        (∀ i, i < mid → left.get i = q.get i) ∧
        (∀ j, j < q.len - mid → right.get j = q.get (mid + j))) ∧
    (q.len < mid → q.split_at mid = none) := by
  obtain ⟨l⟩ := q
  constructor
  · intro h
    have h2 : mid ≤ l.length := h
    refine ⟨⟨l.take mid⟩, ⟨l.drop mid⟩, ?_, ?_, ?_, ?_, ?_⟩
    · simp only [String2.split_at, String2.inner_mk]
      rw [if_pos h2]
    · show (l.take mid).length = mid
      rw [List.length_take]
      omega
    · show (l.drop mid).length = (String2.mk l).len - mid
      rw [List.length_drop]
      rfl
    · intro i hi
      show (l.take mid)[i]? = l[i]?
      rw [List.getElem?_take]
      rw [if_pos hi]
    · intro j hj
      show (l.drop mid)[j]? = l[mid + j]?
      rw [List.getElem?_drop]
  · intro h
    have h2 : ¬ mid ≤ l.length := by
      have h3 : (String2.mk l).len < mid := h
      have h4 : l.length < mid := h3
      omega
    simp only [String2.split_at, String2.inner_mk]
    rw [if_neg h2]

theorem split_at_spec_witness :
    ∃ left right, (String2.mk [104, 101, 108, 108, 111]).split_at 2 = some (left, right) ∧
      left.len = 2 ∧ right.len = (String2.mk [104, 101, 108, 108, 111]).len - 2 ∧
      (∀ i, i < 2 → left.get i = (String2.mk [104, 101, 108, 108, 111]).get i) ∧
      (∀ j, j < (String2.mk [104, 101, 108, 108, 111]).len - 2 →
        right.get j = (String2.mk [104, 101, 108, 108, 111]).get (2 + j)) :=
  (split_at_spec (String2.mk [104, 101, 108, 108, 111]) 2).1 (by decide)

/-- Claim C5: pushing a scalar value and immediately popping returns that
value and restores the sequence exactly (hence also its prior length). -/
theorem push_pop_identity (q : String2) (c : Nat) :
    (q.push c).pop = (some c, q) := by
  obtain ⟨l⟩ := q
  simp only [String2.push, String2.pop, String2.inner_mk]
  rw [List.getLast?_concat, List.dropLast_concat]

/-- Claim C6: for `i ≤ q.len`, inserting `c` at `i` succeeds, and removing
at `i` afterwards returns `c` and restores the original sequence exactly
(content and length). -/
theorem insert_remove_identity (q : String2) (i c : Nat) (h : i ≤ q.len) :
    ∃ q2, q.insert i c = some q2 ∧ q2.remove i = some (c, q) := by
  obtain ⟨l⟩ := q
  have h2 : i ≤ l.length := h
  refine ⟨⟨l.take i ++ c :: l.drop i⟩, ?_, ?_⟩
  · simp only [String2.insert, String2.inner_mk]
    rw [if_pos h2]
  · simp only [String2.remove, String2.inner_mk]
    have htake : (l.take i).length = i := by
      rw [List.length_take]
      omega
    have hlt : i < (l.take i ++ c :: l.drop i).length := by
      rw [List.length_append, htake]
      simp
    rw [dif_pos hlt]
    have hget : (l.take i ++ c :: l.drop i).get ⟨i, hlt⟩ = c := by
      simp only [List.get_eq_getElem, Fin.val_mk]
      rw [List.getElem_append_right (by omega)]
      simp [htake]
    have htk : (l.take i ++ c :: l.drop i).take i = l.take i := List.take_left' htake
    have hdr : (l.take i ++ c :: l.drop i).drop (i + 1) = l.drop i := by
      have hh : i + 1 = (l.take i).length + 1 := by rw [htake]
      rw [hh, List.drop_append]
      simp
    rw [hget, htk, hdr, List.take_append_drop]

theorem insert_remove_identity_witness :
    1 ≤ (String2.mk [104, 105]).len ∧
      ∃ q2, (String2.mk [104, 105]).insert 1 120 = some q2 ∧
        q2.remove 1 = some (120, String2.mk [104, 105]) :=
  ⟨by decide, insert_remove_identity (String2.mk [104, 105]) 1 120 (by decide)⟩

/-- Claim C7: the checked accessors `get` and `get_mut` return the scalar
value at position `i` when `i < q.len` and signal absence (`none`) when
`i ≥ q.len`; they never fault (the receiver is only borrowed, so `q` is
unchanged). -/
theorem get_checked_access (q : String2) (i : Nat) :
    (∀ h : i < q.len, q.get i = some (q.inner.get ⟨i, h⟩) ∧
      q.get_mut i = some (q.inner.get ⟨i, h⟩)) ∧
    (q.len ≤ i → q.get i = none ∧ q.get_mut i = none) := by
  obtain ⟨l⟩ := q
  constructor
  · intro h
    have h2 : i < l.length := h
    constructor <;>
      · show l[i]? = some (l.get ⟨i, h⟩)
        rw [List.getElem?_eq_getElem h2]
        simp [List.get_eq_getElem]
  · intro h
    have h2 : l.length ≤ i := h
    constructor <;> exact List.getElem?_eq_none h2

theorem get_checked_access_witness :
    ((String2.mk [104, 105]).get 1 = some ((String2.mk [104, 105]).inner.get ⟨1, by decide⟩) ∧
      (String2.mk [104, 105]).get_mut 1 =
        some ((String2.mk [104, 105]).inner.get ⟨1, by decide⟩)) ∧
    ((String2.mk [104, 105]).get 5 = none ∧ (String2.mk [104, 105]).get_mut 5 = none) :=
  ⟨(get_checked_access (String2.mk [104, 105]) 1).1 (by decide),
    (get_checked_access (String2.mk [104, 105]) 5).2 (by decide)⟩

/-- Claim C8: `append` leaves the first sequence holding its original
elements followed by the second sequence's original elements (its length is
the sum, the prefix positions read from the first and the offset positions
read from the second), and leaves the second sequence empty. -/
theorem append_spec (a b : String2) :
    (a.append b).1.len = a.len + b.len ∧
    (∀ i, i < a.len → (a.append b).1.get i = a.get i) ∧
    (∀ j, j < b.len → (a.append b).1.get (a.len + j) = b.get j) ∧
    (a.append b).2.len = 0 := by
  obtain ⟨la⟩ := a
  obtain ⟨lb⟩ := b
  refine ⟨?_, ?_, ?_, rfl⟩
  · show (la ++ lb).length = la.length + lb.length
    simp
  · intro i hi
    have hi2 : i < la.length := hi
    show (la ++ lb)[i]? = la[i]?
    rw [List.getElem?_append, if_pos hi2]
  · intro j hj
    show (la ++ lb)[la.length + j]? = lb[j]?
    rw [List.getElem?_append_right (by omega)]
    simp

theorem append_spec_witness :
    ((String2.mk [104]).append (String2.mk [105, 106])).1.get 1 =
        (String2.mk [105, 106]).get 0 ∧
      ((String2.mk [104]).append (String2.mk [105, 106])).2.len = 0 :=
  ⟨(append_spec (String2.mk [104]) (String2.mk [105, 106])).2.2.1 0 (by decide),
    (append_spec (String2.mk [104]) (String2.mk [105, 106])).2.2.2⟩

/-- Claim C9: `from_text` never produces a sequence from ill-formed encoded
text — whenever it accepts a byte sequence, that sequence is well-formed
UTF-8 (the encoding of a sequence of Unicode scalar values).
Contrapositively, every malformed input is rejected with the decoding-error
result `none` rather than decoded with dropped or substituted pieces. -/
theorem from_text_rejects_malformed (b : List Nat) (q : String2)
    (h : String2.from_text b = some q) : WellFormedUtf8 b := by
  unfold String2.from_text at h
  rw [Option.map_eq_some'] at h
  obtain ⟨cs, hdec, rfl⟩ := h
  obtain ⟨henc, hsc⟩ := utf8Decode_sound b cs hdec
  exact ⟨cs, hsc, henc⟩

theorem from_text_rejects_malformed_witness :
    String2.from_text [0x41] = some (String2.mk [0x41]) ∧ WellFormedUtf8 [0x41] :=
  ⟨rfl, from_text_rejects_malformed [0x41] (String2.mk [0x41]) rfl⟩

/-- Claim C10: for `i < q.len`, the unchecked positional indexing
(`ops::Index`) returns the same scalar value that the checked `get`
returns. -/
theorem index_agrees_with_get (q : String2) (i : Nat) (h : i < q.len) :
    q.get i = some (q.index i h) := by
  obtain ⟨l⟩ := q
  have h2 : i < l.length := h
  show l[i]? = some (l.get ⟨i, h⟩)
  rw [List.getElem?_eq_getElem h2]
  simp [List.get_eq_getElem]

theorem index_agrees_with_get_witness :
    (String2.mk [104, 105]).get 0 = some ((String2.mk [104, 105]).index 0 (by decide)) :=
  index_agrees_with_get (String2.mk [104, 105]) 0 (by decide)
